import Mathlib

/-!
# Verification of the CasesNotifier recurring-schedule engine

A shallow embedding of `src/main.rs` (Prevter/CasesNotifier): the account
data model, the binary persistence codec (`Account::to_binary`,
`save_accounts`, `load_accounts`), the weekly-recurrence computation
(`next_wednesday`, built on chrono's `NaiveDateTime`/`NaiveDate`), the
remaining-time computation (`Account::get_remaining_time`), and the
egui-driven UI state machine of `CasesNotifier::update`.

Modelling conventions:
* Rust `u64` values are `Nat` with reductions `% 2 ^ 64` where wrapping
  matters; byte streams are `List Nat` of values `< 256`.
* Fallible code returns `Option`: `none` models a Rust panic (every
  `.unwrap()` in the source propagates as `none`).
* chrono's `NaiveDate` is modelled by its day number relative to the Unix
  epoch (1970-01-01 = day 0, a Thursday).  chrono limits dates to the years
  -262144 ..= 262143; the corresponding day numbers are `MIN_DAY`/`MAX_DAY`
  below.  `NaiveDateTime::from_timestamp_opt(secs, 0)` succeeds exactly when
  `secs.div_euclid(86400)` lies in that range; `NaiveDate::succ_opt` is
  `+1` guarded by `MAX_DAY`; `weekday` is determined by the day number
  modulo 7 (`Wed` ↔ `emod 7 = 6`, since day 0 is a Thursday); the
  timestamp of a date's midnight is `day * 86400`.
-/

namespace CasesNotifier

/-- The `Account` struct of `main.rs`: a name (the raw bytes of the Rust
`String`) and a `u64` Unix timestamp of the last collected drop. -/
structure Account where
  name : List Nat
  date : Nat
deriving DecidableEq, Repr

/-- `u64::to_le_bytes` generalised: the `n` little-endian base-256 digits of
`d`. -/
def leBytes : Nat → Nat → List Nat
  | 0, _ => []
  | n + 1, d => d % 256 :: leBytes n (d / 256)

/-- `u64::from_le_bytes`: value of a little-endian byte list. -/
def leVal : List Nat → Nat
  | [] => 0
  | b :: rest => b + 256 * leVal rest

/-- `Account::to_binary` (main.rs:86-92): name bytes, a `0x00` terminator,
then the timestamp as 8 little-endian bytes. -/
def to_binary (a : Account) : List Nat :=
  a.name ++ [0] ++ leBytes 8 a.date

/-- `save_accounts` (main.rs:113-118), as the byte stream written to
`accounts.dat`: the concatenation of the per-account encodings. -/
def save_accounts : List Account → List Nat
  | [] => []
  | a :: rest => to_binary a ++ save_accounts rest

/-- Rust `std::str::from_utf8` validity (the check behind
`String::from_utf8(..).unwrap()` in `load_accounts`): strict UTF-8,
rejecting overlong forms, surrogates and code points above U+10FFFF. -/
def validUtf8 : List Nat → Bool
  | [] => true
  | b :: rest =>
    if b ≤ 0x7F then validUtf8 rest
    else
      match rest with
      | [] => false
      | c1 :: r1 =>
        if 0xC2 ≤ b ∧ b ≤ 0xDF then
          decide (0x80 ≤ c1 ∧ c1 ≤ 0xBF) && validUtf8 r1
        else
          match r1 with
          | [] => false
          | c2 :: r2 =>
            if b = 0xE0 then
              decide (0xA0 ≤ c1 ∧ c1 ≤ 0xBF) && decide (0x80 ≤ c2 ∧ c2 ≤ 0xBF) &&
                validUtf8 r2
            else if (0xE1 ≤ b ∧ b ≤ 0xEC) ∨ b = 0xEE ∨ b = 0xEF then
              decide (0x80 ≤ c1 ∧ c1 ≤ 0xBF) && decide (0x80 ≤ c2 ∧ c2 ≤ 0xBF) &&
                validUtf8 r2
            else if b = 0xED then
              decide (0x80 ≤ c1 ∧ c1 ≤ 0x9F) && decide (0x80 ≤ c2 ∧ c2 ≤ 0xBF) &&
                validUtf8 r2
            else
              match r2 with
              | [] => false
              | c3 :: r3 =>
                if b = 0xF0 then
                  decide (0x90 ≤ c1 ∧ c1 ≤ 0xBF) && decide (0x80 ≤ c2 ∧ c2 ≤ 0xBF) &&
                    decide (0x80 ≤ c3 ∧ c3 ≤ 0xBF) && validUtf8 r3
                else if 0xF1 ≤ b ∧ b ≤ 0xF3 then
                  decide (0x80 ≤ c1 ∧ c1 ≤ 0xBF) && decide (0x80 ≤ c2 ∧ c2 ≤ 0xBF) &&
                    decide (0x80 ≤ c3 ∧ c3 ≤ 0xBF) && validUtf8 r3
                else if b = 0xF4 then
                  decide (0x80 ≤ c1 ∧ c1 ≤ 0x8F) && decide (0x80 ≤ c2 ∧ c2 ≤ 0xBF) &&
                    decide (0x80 ≤ c3 ∧ c3 ≤ 0xBF) && validUtf8 r3
                else false

/-- The decode loop of `load_accounts` (main.rs:125-140).  Arguments:
remaining stream, current name buffer, accounts decoded so far.  A zero
byte closes the name (`String::from_utf8(..).unwrap()` panics — `none` —
on invalid UTF-8) and the next 8 bytes are read as the timestamp
(`read_exact(..).unwrap()` panics — `none` — when fewer than 8 remain);
end of stream breaks the loop, silently dropping a partial name buffer. -/
def decodeLoop : List Nat → List Nat → List Account → Option (List Account)
  | [], _, accts => some accts
  | b :: rest, buf, accts =>
    if b = 0 then
      if validUtf8 buf then
        if 8 ≤ rest.length then
          decodeLoop (rest.drop 8) [] (accts ++ [⟨buf, leVal (rest.take 8)⟩])
        else none
      else none
    else decodeLoop rest (buf ++ [b]) accts
termination_by s _ _ => s.length
decreasing_by
  · simp only [List.length_drop, List.length_cons]; omega
  · simp only [List.length_cons]; omega

/-- `load_accounts` (main.rs:120-143).  The input is `none` when the file
`accounts.dat` cannot be opened (the `if let Ok(file)` guard fails and the
empty vector is returned), otherwise `some` of the file's bytes. -/
def load_accounts : Option (List Nat) → Option (List Account)
  | none => some []
  | some bytes => decodeLoop bytes [] []

/-- The pure core of `Account::get_remaining_time` (main.rs:77-84), with
the two `u64` inputs made explicit: `now` from the clock and `next` from
`get_next_date()`.  `u64` subtraction here never underflows because it is
only reached when `now ≤ next`, so `Nat` subtraction is exact. -/
def get_remaining_time (now next : Nat) : Nat :=
  if now > next then 0 else next - now

/-- A store is well formed when every account is a possible Rust value:
the name bytes are a valid UTF-8 `String` and the timestamp fits `u64`. -/
def WFStore (S : List Account) : Prop :=
  ∀ a ∈ S, validUtf8 a.name = true ∧ a.date < 2 ^ 64

instance (S : List Account) : Decidable (WFStore S) := by
  unfold WFStore; infer_instance

end CasesNotifier

namespace CasesNotifier

/-! ## Codec lemmas -/

theorem leBytes_length (n d : Nat) : (leBytes n d).length = n := by
  induction n generalizing d with
  | zero => rfl
  | succ n ih => simp [leBytes, ih]

theorem leVal_leBytes (n d : Nat) (h : d < 256 ^ n) : leVal (leBytes n d) = d := by
  induction n generalizing d with
  | zero => simp at h; simp [h, leBytes, leVal]
  | succ n ih =>
    have hd : d / 256 < 256 ^ n := by
      rw [pow_succ] at h
      exact (Nat.div_lt_iff_lt_mul (by norm_num : 0 < 256)).mpr h
    simp only [leBytes, leVal, ih (d / 256) hd]
    omega

theorem decodeLoop_scan_name (nm : List Nat) (h : ∀ b ∈ nm, b ≠ 0) :
    ∀ (buf : List Nat) (accts : List Account) (rest : List Nat),
      decodeLoop (nm ++ 0 :: rest) buf accts =
        if validUtf8 (buf ++ nm) then
          if 8 ≤ rest.length then
            decodeLoop (rest.drop 8) []
              (accts ++ [⟨buf ++ nm, leVal (rest.take 8)⟩])
          else none
        else none := by
  induction nm with
  | nil => intro buf accts rest; simp [decodeLoop]
  | cons x nm ih =>
    intro buf accts rest
    have hx : x ≠ 0 := h x (by simp)
    have hnm : ∀ b ∈ nm, b ≠ 0 := fun b hb => h b (by simp [hb])
    simp only [List.cons_append, decodeLoop, if_neg hx]
    rw [ih hnm (buf ++ [x]) accts rest]
    simp [List.append_assoc]

theorem decodeLoop_record (a : Account) (hv : validUtf8 a.name = true)
    (hd : a.date < 2 ^ 64) (h0 : 0 ∉ a.name) (accts : List Account)
    (rest : List Nat) :
    decodeLoop (to_binary a ++ rest) [] accts = decodeLoop rest [] (accts ++ [a]) := by
  have hne : ∀ b ∈ a.name, b ≠ 0 := fun b hb => by
    intro hb0; exact h0 (hb0 ▸ hb)
  have harr : to_binary a ++ rest = a.name ++ 0 :: (leBytes 8 a.date ++ rest) := by
    simp [to_binary, List.append_assoc]
  rw [harr, decodeLoop_scan_name a.name hne [] accts (leBytes 8 a.date ++ rest)]
  have hlen : (leBytes 8 a.date).length = 8 := leBytes_length 8 a.date
  have htake : (leBytes 8 a.date ++ rest).take 8 = leBytes 8 a.date :=
    List.take_left' hlen
  have hdrop : (leBytes 8 a.date ++ rest).drop 8 = rest :=
    List.drop_left' hlen
  have hval : leVal (leBytes 8 a.date) = a.date :=
    leVal_leBytes 8 a.date (by norm_num at hd ⊢; omega)
  simp only [List.nil_append, hv, if_true, List.length_append, hlen, htake, hdrop, hval]
  have h8 : 8 ≤ 8 + rest.length := by omega
  rw [if_pos h8]

theorem decodeLoop_save (S : List Account)
    (h : ∀ a ∈ S, validUtf8 a.name = true ∧ a.date < 2 ^ 64 ∧ 0 ∉ a.name) :
    ∀ (accts : List Account) (rest : List Nat),
      decodeLoop (save_accounts S ++ rest) [] accts = decodeLoop rest [] (accts ++ S) := by
  induction S with
  | nil => intro accts rest; simp [save_accounts]
  | cons a S ih =>
    intro accts rest
    obtain ⟨hv, hd, h0⟩ := h a (by simp)
    have hS : ∀ a ∈ S, validUtf8 a.name = true ∧ a.date < 2 ^ 64 ∧ 0 ∉ a.name :=
      fun b hb => h b (by simp [hb])
    simp only [save_accounts, List.append_assoc]
    rw [decodeLoop_record a hv hd h0 accts (save_accounts S ++ rest),
      ih hS (accts ++ [a]) rest]
    simp

/-! ## C1: round-trip law for the persistence codec -/

/-- C1 (counterexample).  The round-trip law fails for a store whose single
account has the valid-UTF-8 name `"a\u{0}b"` (bytes `[97, 0, 98]`): the
embedded NUL byte is written verbatim by `Account::to_binary`, so decoding
misreads it as the name terminator and reconstructs a different store
(name `"a"`, timestamp `98`). -/
theorem claim_C1_counterexample :
    validUtf8 [97, 0, 98] = true ∧ (2 ^ 48 + 2 ^ 56 : Nat) < 2 ^ 64 ∧
    load_accounts (some (save_accounts [⟨[97, 0, 98], 2 ^ 48 + 2 ^ 56⟩])) =
      some [⟨[97], 98⟩] ∧
    Account.mk [97] 98 ≠ Account.mk [97, 0, 98] (2 ^ 48 + 2 ^ 56) := by
  refine ⟨by decide, by norm_num, ?_, by decide⟩
  norm_num [load_accounts, save_accounts, to_binary, leBytes, decodeLoop, validUtf8,
    leVal]

/-- C1 (amended).  Round-trip law for the persistence codec, restricted to
stores in which no account name contains a `0x00` byte: decoding the
concatenation of the per-account encodings yields the original store, every
name and timestamp preserved exactly and in order.  (For names with an
embedded NUL byte — which Rust `String`s permit — the law fails, see the
counterexample.) -/
theorem claim_C1_roundtrip (S : List Account)
    (h : ∀ a ∈ S, validUtf8 a.name = true ∧ a.date < 2 ^ 64 ∧ 0 ∉ a.name) :
    load_accounts (some (save_accounts S)) = some S := by
  have := decodeLoop_save S h [] []
  simpa [load_accounts, decodeLoop] using this

/-- Witness for C1: a concrete two-account store round-trips. -/
theorem claim_C1_roundtrip_witness :
    load_accounts (some (save_accounts [⟨[104, 105], 42⟩, ⟨[], 2 ^ 63⟩])) =
      some [⟨[104, 105], 42⟩, ⟨[], 2 ^ 63⟩] :=
  claim_C1_roundtrip [⟨[104, 105], 42⟩, ⟨[], 2 ^ 63⟩] (by decide)

/-! ## C4: decoding a stream truncated inside the timestamp field -/

/-- C4 (counterexample).  A stream holding one valid record (`"A"`,
timestamp 3) followed by a name `"B"`, its terminator and only 5 trailing
bytes makes `load_accounts` hit `read_exact(..).unwrap()` on a short read:
the process panics (modelled `none`) — no accounts are returned and no
`CorruptStream` value exists, contradicting the claim. -/
theorem claim_C4_counterexample :
    load_accounts (some [65, 0, 3, 0, 0, 0, 0, 0, 0, 0, 66, 0, 1, 2, 3, 4, 5]) =
      none := by
  norm_num [load_accounts, decodeLoop, validUtf8, leVal]

/-- C4 (amended).  Decoding a persisted stream that ends in the middle of
the 8-byte timestamp field — any well-formed records, then a NUL-free name,
its terminator and fewer than 8 remaining bytes — makes `load_accounts`
panic via `read_exact(..).unwrap()` (modelled `none`), terminating the
process; the accounts parsed before the corruption point are lost, and no
`CorruptStream` error is surfaced. -/
theorem claim_C4_truncated_panics (S : List Account)
    (h : ∀ a ∈ S, validUtf8 a.name = true ∧ a.date < 2 ^ 64 ∧ 0 ∉ a.name)
    (nm extra : List Nat) (hnm : 0 ∉ nm) (hextra : extra.length < 8) :
    load_accounts (some (save_accounts S ++ (nm ++ 0 :: extra))) = none := by
  have hne : ∀ b ∈ nm, b ≠ 0 := fun b hb h0 => hnm (h0 ▸ hb)
  show decodeLoop (save_accounts S ++ (nm ++ 0 :: extra)) [] [] = none
  rw [decodeLoop_save S h [] (nm ++ 0 :: extra), List.nil_append,
    decodeLoop_scan_name nm hne [] S extra]
  rw [if_neg (by omega : ¬ 8 ≤ extra.length)]
  split <;> rfl

/-- Witness for C4: the amended statement at the counterexample stream. -/
theorem claim_C4_truncated_panics_witness :
    load_accounts (some (save_accounts [⟨[65], 3⟩] ++ ([66] ++ 0 :: [1, 2, 3, 4, 5]))) =
      none :=
  claim_C4_truncated_panics [⟨[65], 3⟩] (by decide) [66] [1, 2, 3, 4, 5]
    (by decide) (by decide)

/-! ## C5: remaining time -/

/-- C5.  `get_remaining_time now next` is `0` exactly when `now ≥ next`
(the eligibility boundary is inclusive: at `now = next` the `now > next`
test fails and `next - now = 0` is returned), equals `next - now` (strictly
positive) when `now < next`, and — being a `u64`/`Nat` with the subtraction
taken only when `now ≤ next` — is never negative. -/
theorem claim_C5_remaining_time (now next : Nat) :
    (get_remaining_time now next = 0 ↔ next ≤ now) ∧
    (now < next →
      get_remaining_time now next = next - now ∧ 0 < get_remaining_time now next) := by
  unfold get_remaining_time
  constructor
  · split <;> omega
  · intro h; split <;> omega

/-- Witness for C5 at the boundary `now = next` and at `now < next`. -/
theorem claim_C5_remaining_time_witness :
    (get_remaining_time 7 7 = 0 ↔ (7 : Nat) ≤ 7) ∧
    (get_remaining_time 3 10 = 10 - 3 ∧ 0 < get_remaining_time 3 10) :=
  ⟨(claim_C5_remaining_time 7 7).1, (claim_C5_remaining_time 3 10).2 (by decide)⟩

/-! ## The recurrence computation: `next_wednesday` -/

/-- Day number (relative to the Unix epoch) of chrono's `NaiveDate::MIN`,
-262144-01-01 in the proleptic Gregorian calendar. -/
def MIN_DAY : Int := -96465658

/-- Day number of chrono's `NaiveDate::MAX`, 262143-12-31. -/
def MAX_DAY : Int := 95026601

/-- The `timestamp as i64` cast of main.rs:146: a `u64` value reinterpreted
as a signed 64-bit integer. -/
def toI64 (t : Nat) : Int :=
  if t % 2 ^ 64 < 2 ^ 63 then (t % 2 ^ 64 : Int) else (t % 2 ^ 64 : Int) - 2 ^ 64

/-- The `.timestamp() as u64` cast of main.rs:154: a signed 64-bit value
reinterpreted as `u64`. -/
def wrap64 (x : Int) : Nat := (x % 2 ^ 64).toNat

/-- chrono's `weekday() == Weekday::Wed` test on a day number: day 0
(1970-01-01) is a Thursday, so the Wednesdays are the days `≡ 6 (mod 7)`
(day 6 is 1970-01-07, a Wednesday). -/
def isWed (d : Int) : Bool := d % 7 = 6

/-- `NaiveDate::succ_opt` on day numbers: the following day, or `none` at
`NaiveDate::MAX` — where the source's `.unwrap()` panics. -/
def succDay (d : Int) : Option Int := if d < MAX_DAY then some (d + 1) else none

/-- The `while next_wednesday.weekday() != Weekday::Wed` loop of
main.rs:149-151, advancing with `succ_opt().unwrap()`.  The fuel (always
instantiated with 7) strictly dominates the at-most-6 steps the loop can
take before reaching a Wednesday, so the fuel-exhausted `none` is
unreachable; the `succDay`-induced `none` models the panic past
`NaiveDate::MAX`. -/
def loopWed : Nat → Int → Option Int
  | 0, _ => none
  | f + 1, d =>
    if isWed d then some d
    else
      match succDay d with
      | some d' => loopWed f d'
      | none => none

/-- `next_wednesday` (main.rs:145-155).  `NaiveDateTime::from_timestamp_opt`
succeeds exactly when the epoch-day `secs.div_euclid(86400)` of the input
lies in `[MIN_DAY, MAX_DAY]`; its `.unwrap()` panic is `none`.  Then the
date is advanced one day (`succ_opt().unwrap()`) and stepped to the next
Wednesday, whose midnight timestamp `day * 86400` is cast back to `u64`. -/
def next_wednesday (t : Nat) : Option Nat :=
  if toI64 t / 86400 < MIN_DAY ∨ MAX_DAY < toI64 t / 86400 then none
  else
    match succDay (toI64 t / 86400) with
    | none => none
    | some d1 => (loopWed 7 d1).map fun w => wrap64 (w * 86400)

/-- The first Wednesday-day strictly after `day`. -/
def wedAfter (day : Int) : Int := day + 1 + (6 - (day + 1)) % 7

theorem loopWed_eq (f : Nat) (d : Int) (hd : d ≤ MAX_DAY)
    (hf : (6 - d) % 7 < (f : Int)) :
    loopWed f d =
      if d + (6 - d) % 7 ≤ MAX_DAY then some (d + (6 - d) % 7) else none := by
  induction f generalizing d with
  | zero => exfalso; revert hf; omega
  | succ f ih =>
    by_cases hw : d % 7 = 6
    · have h0 : (6 - d) % 7 = 0 := by omega
      have hisw : isWed d = true := by simp [isWed, hw]
      simp only [loopWed, hisw, if_true, h0, add_zero, if_pos hd]
    · have h1 : 1 ≤ (6 - d) % 7 := by omega
      have hisw : isWed d = false := by simp [isWed]; omega
      simp only [loopWed, hisw, Bool.false_eq_true, if_false]
      by_cases hlt : d < MAX_DAY
      · simp only [succDay, if_pos hlt]
        rw [ih (d + 1) (by omega) (by omega)]
        have he : d + 1 + (6 - (d + 1)) % 7 = d + (6 - d) % 7 := by omega
        rw [he]
      · simp only [succDay, if_neg hlt]
        rw [if_neg (by omega)]

/-- Closed-form characterization of `next_wednesday`: it succeeds exactly
when the input's epoch-day and the following Wednesday both fit chrono's
date range, and then returns that Wednesday's midnight cast to `u64`. -/
theorem next_wednesday_char (t : Nat) :
    next_wednesday t =
      if MIN_DAY ≤ toI64 t / 86400 ∧ toI64 t / 86400 ≤ MAX_DAY ∧
          wedAfter (toI64 t / 86400) ≤ MAX_DAY
      then some (wrap64 (wedAfter (toI64 t / 86400) * 86400))
      else none := by
  unfold next_wednesday wedAfter
  by_cases h1 : toI64 t / 86400 < MIN_DAY ∨ MAX_DAY < toI64 t / 86400
  · rw [if_pos h1, if_neg (by omega)]
  · rw [if_neg h1]
    by_cases h2 : toI64 t / 86400 < MAX_DAY
    · simp only [succDay, if_pos h2]
      rw [loopWed_eq 7 (toI64 t / 86400 + 1) (by omega) (by omega)]
      by_cases h3 : toI64 t / 86400 + 1 + (6 - (toI64 t / 86400 + 1)) % 7 ≤ MAX_DAY
      · rw [if_pos h3, if_pos ⟨by omega, by omega, h3⟩]; rfl
      · rw [if_neg h3, if_neg (by omega)]; rfl
    · simp only [succDay, if_neg h2]
      rw [if_neg (by omega)]

/-- `toI64` inverts `wrap64` on values that fit in a signed 64-bit word. -/
theorem toI64_wrap64 (x : Int) (h1 : -2 ^ 63 ≤ x) (h2 : x < 2 ^ 63) :
    toI64 (wrap64 x) = x := by
  unfold toI64 wrap64
  split <;> omega

/-- `wrap64` of a nonzero word-sized value is at least 1, and decrementing
it (the `u64` subtraction `r - 1`) commutes with the signed reading. -/
theorem wrap64_pred (x : Int) (h1 : -2 ^ 62 ≤ x) (h2 : x < 2 ^ 62) (h3 : x ≠ 0) :
    1 ≤ wrap64 x ∧ toI64 (wrap64 x - 1) = x - 1 := by
  unfold toI64 wrap64
  refine ⟨by omega, ?_⟩
  split <;> omega

/-- Modelled from the spec (§4.1 RecurrenceCalculator), for comparison with
the source: the next occurrence for a host machine whose local timezone
sits at a fixed offset `off` seconds east of UTC — interpret the reference
timestamp in local wall-clock time, take the strictly next calendar day
whose weekday is the anchor weekday (Wednesday), and convert that day's
local midnight (00:00:00) back to an integer Unix timestamp. -/
def specNextOccurrenceLocal (off secs : Int) : Int :=
  wedAfter ((secs + off) / 86400) * 86400 - off

/-! ## C2: the result is naive/UTC midnight, not host-local midnight -/

/-- C2 (counterexample).  `next_wednesday` performs no timezone conversion
at all (`NaiveDateTime` throughout): at reference 0 (Thursday 1970-01-01
00:00 UTC) it returns 518400 = 1970-01-07 00:00 **UTC**, while local
midnight of that Wednesday on a host one hour east of UTC (e.g. CET) is
514800.  So the result is not the local midnight the claim requires. -/
theorem claim_C2_counterexample :
    next_wednesday 0 = some 518400 ∧
    specNextOccurrenceLocal 3600 0 = 514800 ∧ (518400 : Int) ≠ 514800 := by
  refine ⟨by decide, ?_, by norm_num⟩
  norm_num [specNextOccurrenceLocal, wedAfter]

/-- C2 (amended).  For every reference timestamp on which it succeeds,
`next_wednesday` returns the **UTC** (offset-zero) midnight of the strictly
next Wednesday — the spec's computation instantiated with offset 0 — via
calendar arithmetic on days; the result is midnight (a multiple of 86400
seconds).  It agrees with host-local midnight only when the host timezone
is UTC. -/
theorem claim_C2_utc_midnight (t r : Nat) (h : next_wednesday t = some r) :
    toI64 r = specNextOccurrenceLocal 0 (toI64 t) ∧ toI64 r % 86400 = 0 := by
  rw [next_wednesday_char] at h
  split at h
  case isTrue hc =>
    obtain ⟨hmin, hmax, hwed⟩ := hc
    simp only [MIN_DAY, MAX_DAY] at hmin hmax hwed
    have hr := Option.some.inj h
    have hlo : toI64 t / 86400 + 1 ≤ wedAfter (toI64 t / 86400) := by
      unfold wedAfter; omega
    have hb : toI64 (wrap64 (wedAfter (toI64 t / 86400) * 86400)) =
        wedAfter (toI64 t / 86400) * 86400 := by
      refine toI64_wrap64 _ (by omega) (by omega)
    rw [← hr, hb]
    refine ⟨?_, by omega⟩
    simp [specNextOccurrenceLocal]
  case isFalse => simp at h

/-- Witness for C2 (amended) at reference 0. -/
theorem claim_C2_utc_midnight_witness :
    toI64 518400 = specNextOccurrenceLocal 0 (toI64 0) ∧ toI64 518400 % 86400 = 0 :=
  claim_C2_utc_midnight 0 518400 (by decide)

/-! ## C3: strictly-next anchor day -/

/-- C3.  Whenever `next_wednesday` succeeds, the (naive-calendar) day of the
result lies strictly after the day containing the reference, its weekday is
Wednesday (day number `≡ 6 (mod 7)`), and when the reference itself falls
on a Wednesday the result is exactly seven days later — the following
week's Wednesday, never the same day. -/
theorem claim_C3_strictly_next (t r : Nat) (h : next_wednesday t = some r) :
    toI64 t / 86400 < toI64 r / 86400 ∧ (toI64 r / 86400) % 7 = 6 ∧
      ((toI64 t / 86400) % 7 = 6 → toI64 r / 86400 = toI64 t / 86400 + 7) := by
  rw [next_wednesday_char] at h
  split at h
  case isTrue hc =>
    obtain ⟨hmin, hmax, hwed⟩ := hc
    simp only [MIN_DAY, MAX_DAY] at hmin hmax hwed
    have hr := Option.some.inj h
    have hlo : toI64 t / 86400 + 1 ≤ wedAfter (toI64 t / 86400) := by
      unfold wedAfter; omega
    have hb : toI64 (wrap64 (wedAfter (toI64 t / 86400) * 86400)) =
        wedAfter (toI64 t / 86400) * 86400 := by
      refine toI64_wrap64 _ (by omega) (by omega)
    rw [← hr, hb]
    unfold wedAfter at *
    refine ⟨by omega, by omega, fun hw => by omega⟩
  case isFalse => simp at h

/-- Witness for C3 at a Wednesday reference: 518400 is Wednesday 1970-01-07
00:00, and the result day 13 (1970-01-14) is the following Wednesday. -/
theorem claim_C3_strictly_next_witness :
    toI64 518400 / 86400 < toI64 1123200 / 86400 ∧
    (toI64 1123200 / 86400) % 7 = 6 ∧
    ((toI64 518400 / 86400) % 7 = 6 →
      toI64 1123200 / 86400 = toI64 518400 / 86400 + 7) :=
  claim_C3_strictly_next 518400 1123200 (by decide)

/-! ## C6: failure behaviour on unrepresentable timestamps -/

/-- C6 (counterexample).  On the out-of-range input 10^16 seconds (beyond
chrono's maximal date, year 262143) `from_timestamp_opt` returns `None` and
the source's `.unwrap()` panics, terminating the process (modelled `none`);
no `InvalidTimestamp` error value is returned to the caller, contradicting
"fails with the InvalidTimestamp error rather than crashing" and "no
operation may terminate the process". -/
theorem claim_C6_counterexample : next_wednesday (10 ^ 16) = none := by decide

/-- C6 (amended).  `next_wednesday` panics (modelled `none`) — rather than
returning an `InvalidTimestamp` error — exactly on the inputs whose
epoch-day, or the Wednesday following it, falls outside chrono's
representable date range; on every other input it succeeds.  It is a pure
function of its argument with no side effects. -/
theorem claim_C6_panic_iff_out_of_range (t : Nat) :
    next_wednesday t = none ↔
      ¬ (MIN_DAY ≤ toI64 t / 86400 ∧ toI64 t / 86400 ≤ MAX_DAY ∧
          wedAfter (toI64 t / 86400) ≤ MAX_DAY) := by
  rw [next_wednesday_char]
  split <;> simp_all

/-! ## C8: idempotence one second before an occurrence -/

/-- C8.  Whenever `next_wednesday t` succeeds with value `r`, applying the
computation to one second earlier (`u64` subtraction `r - 1`, i.e. 23:59:59
of the preceding Tuesday) yields the same occurrence `r`. -/
theorem claim_C8_idempotent (t r : Nat) (h : next_wednesday t = some r) :
    next_wednesday (r - 1) = some r := by
  rw [next_wednesday_char] at h
  split at h
  case isTrue hc =>
    obtain ⟨hmin, hmax, hwed⟩ := hc
    simp only [MIN_DAY, MAX_DAY] at hmin hmax hwed
    have hr := Option.some.inj h
    have hlo : toI64 t / 86400 + 1 ≤ wedAfter (toI64 t / 86400) := by
      unfold wedAfter; omega
    have hmod : wedAfter (toI64 t / 86400) % 7 = 6 := by
      unfold wedAfter; omega
    have hpred := wrap64_pred (wedAfter (toI64 t / 86400) * 86400)
      (by omega) (by omega) (by omega)
    rw [← hr, next_wednesday_char]
    have hd' : toI64 (wrap64 (wedAfter (toI64 t / 86400) * 86400) - 1) / 86400 =
        wedAfter (toI64 t / 86400) - 1 := by
      rw [hpred.2]; omega
    rw [hd']
    have hwa : wedAfter (wedAfter (toI64 t / 86400) - 1) =
        wedAfter (toI64 t / 86400) := by
      unfold wedAfter; omega
    rw [hwa]
    rw [if_pos ⟨by simp only [MIN_DAY]; omega, by simp only [MAX_DAY]; omega,
      by simp only [MAX_DAY]; omega⟩]
  case isFalse => simp at h

/-- Witness for C8: one second before 1970-01-07 00:00 UTC still maps to
1970-01-07 00:00 UTC. -/
theorem claim_C8_idempotent_witness : next_wednesday (518400 - 1) = some 518400 :=
  claim_C8_idempotent 0 518400 (by decide)

/-! ## C7: a missing persistence file is an empty store -/

/-- C7.  When `accounts.dat` is absent (`File::open` fails, the `if let Ok`
guard is skipped), `load_accounts` succeeds and returns the empty store;
absence of the file is not an error and does not panic. -/
theorem claim_C7_missing_file : load_accounts none = some [] := rfl

/-! ## The UI state machine of `CasesNotifier::update` -/

/-- The `CasesNotifier` struct (main.rs:95-100): the account list, the
edit-guard flag, the index of the account under edit, and the draft text of
the date field (its bytes). -/
structure State where
  accounts : List Account
  editing_account : Bool
  account_to_edit : Nat
  editing_date : List Nat
deriving DecidableEq, Repr

/-- The name `"Account name"` given to a freshly added account
(main.rs:164). -/
def defaultName : List Nat := [65, 99, 99, 111, 117, 110, 116, 32, 110, 97, 109, 101]

/-- In-place update of `accounts[i].date` (the `account.date = ...`
assignments of main.rs:213 and 261). -/
def setDate : List Account → Nat → Nat → List Account
  | [], _, _ => []
  | a :: rest, 0, d => ⟨a.name, d⟩ :: rest
  | a :: rest, i + 1, d => a :: setDate rest i d

/-- In-place update of `accounts[i].name` (the name `TextEdit` of
main.rs:242-244 writing through `&mut self.accounts[..].name`). -/
def setName : List Account → Nat → List Nat → List Account
  | [], _, _ => []
  | a :: rest, 0, nm => ⟨nm, a.date⟩ :: rest
  | a :: rest, i + 1, nm => a :: setName rest i nm

/-- One user interaction handled by a frame of `CasesNotifier::update`:
the menu-bar "Add account" button; the per-row "Edit", "Delete" and
"Reset timer" buttons (carrying the row index, and for reset the current
clock reading); one round of interaction inside the open edit window (the
possibly-edited name, the result of the date-parse attempt, the new draft
text); and closing the edit window. -/
inductive Event where
  | addClicked (now : Nat)
  | editClicked (i : Nat)
  | deleteClicked (i : Nat)
  | resetClicked (i : Nat) (now : Nat)
  | editFrame (newName : List Nat) (parsed : Option Nat) (draft : List Nat)
  | closeEdit
deriving DecidableEq, Repr

/-- The state transition of `CasesNotifier::update` (main.rs:158-277) for
one interaction, parameterised by the external `format_date` rendering
function `fmt` (timezone-dependent display formatting, out of the engine's
scope).  Every mutating button is guarded by `&& !self.editing_account`;
the edit window only exists while `editing_account` holds.  Persistence
writes (`save_accounts` calls) change no in-memory state and are omitted
here. -/
def step (fmt : Nat → List Nat) (s : State) (e : Event) : State :=
  match e with
  | .addClicked now =>
    if s.editing_account then s
    else
      let accounts := s.accounts ++ [⟨defaultName, now⟩]
      { accounts := accounts, editing_account := true,
        account_to_edit := accounts.length - 1, editing_date := fmt now }
  | .editClicked i =>
    if s.editing_account then s
    else
      { s with
        editing_account := true
        account_to_edit := i
        editing_date := fmt ((s.accounts.getD i ⟨[], 0⟩).date) }
  | .deleteClicked i =>
    if s.editing_account then s
    else { s with accounts := s.accounts.eraseIdx i }
  | .resetClicked i now =>
    if s.editing_account then s
    else { s with accounts := setDate s.accounts i now }
  | .editFrame newName parsed draft =>
    if s.editing_account then
      let accounts1 := setName s.accounts s.account_to_edit newName
      let accounts2 :=
        match parsed with
        | some d => setDate accounts1 s.account_to_edit d
        | none => accounts1
      { s with accounts := accounts2, editing_date := draft }
    else s
  | .closeEdit =>
    if s.editing_account then { s with editing_account := false } else s

/-- Events the UI can actually emit in a given state: the per-row buttons
exist only for indices of rendered rows, and edit-window interactions only
while the window is open. -/
def eventValid (s : State) : Event → Bool
  | .editClicked i => i < s.accounts.length
  | .deleteClicked i => i < s.accounts.length
  | .resetClicked i _ => i < s.accounts.length
  | .editFrame _ _ _ => s.editing_account
  | _ => true

theorem setDate_length (l : List Account) (i d : Nat) :
    (setDate l i d).length = l.length := by
  induction l generalizing i with
  | nil => rfl
  | cons a rest ih =>
    cases i with
    | zero => rfl
    | succ i => simp [setDate, ih]

theorem setName_length (l : List Account) (i : Nat) (nm : List Nat) :
    (setName l i nm).length = l.length := by
  induction l generalizing i with
  | nil => rfl
  | cons a rest ih =>
    cases i with
    | zero => rfl
    | succ i => simp [setName, ih]

/-! ## C9: the edit guard rejects mutations while editing -/

/-- C9.  While the edit guard is in the editing state
(`editing_account = true`), the add, delete and reset requests and a second
begin-edit request are all no-ops (the whole state, in particular the
account list, is unchanged); closing the edit session clears the flag, and
a new begin-edit on row `j` then succeeds, entering the editing state on
index `j`. -/
theorem claim_C9_edit_guard (fmt : Nat → List Nat) (s : State)
    (h : s.editing_account = true) (now i j : Nat) :
    step fmt s (.addClicked now) = s ∧
    step fmt s (.deleteClicked i) = s ∧
    step fmt s (.resetClicked i now) = s ∧
    step fmt s (.editClicked i) = s ∧
    (step fmt s .closeEdit).editing_account = false ∧
    (step fmt (step fmt s .closeEdit) (.editClicked j)).editing_account = true ∧
    (step fmt (step fmt s .closeEdit) (.editClicked j)).account_to_edit = j := by
  simp [step, h]

/-- Witness for C9 on a concrete editing-state store. -/
theorem claim_C9_edit_guard_witness :
    step (fun _ => []) ⟨[⟨[97], 5⟩], true, 0, []⟩ (.addClicked 11) =
      ⟨[⟨[97], 5⟩], true, 0, []⟩ ∧
    step (fun _ => []) ⟨[⟨[97], 5⟩], true, 0, []⟩ (.deleteClicked 0) =
      ⟨[⟨[97], 5⟩], true, 0, []⟩ ∧
    step (fun _ => []) ⟨[⟨[97], 5⟩], true, 0, []⟩ (.resetClicked 0 11) =
      ⟨[⟨[97], 5⟩], true, 0, []⟩ ∧
    step (fun _ => []) ⟨[⟨[97], 5⟩], true, 0, []⟩ (.editClicked 0) =
      ⟨[⟨[97], 5⟩], true, 0, []⟩ ∧
    (step (fun _ => []) ⟨[⟨[97], 5⟩], true, 0, []⟩ .closeEdit).editing_account =
      false ∧
    (step (fun _ => []) (step (fun _ => []) ⟨[⟨[97], 5⟩], true, 0, []⟩ .closeEdit)
      (.editClicked 0)).editing_account = true ∧
    (step (fun _ => []) (step (fun _ => []) ⟨[⟨[97], 5⟩], true, 0, []⟩ .closeEdit)
      (.editClicked 0)).account_to_edit = 0 :=
  claim_C9_edit_guard (fun _ => []) ⟨[⟨[97], 5⟩], true, 0, []⟩ rfl 11 0 0

/-! ## C10: the edit index stays in bounds -/

/-- The invariant of C10: whenever the editing flag is set, the index of
the account under edit is a valid index into the account list, so the edit
window's direct indexing `self.accounts[self.account_to_edit]` cannot go
out of bounds. -/
def EditIndexInv (s : State) : Prop :=
  s.editing_account = true → s.account_to_edit < s.accounts.length

instance (s : State) : Decidable (EditIndexInv s) := by
  unfold EditIndexInv; infer_instance

/-- C10.  Every UI-step transition on a UI-emittable event preserves the
invariant that the edit index is in bounds while editing. -/
theorem claim_C10_inv_preserved (fmt : Nat → List Nat) (s : State) (e : Event)
    (hInv : EditIndexInv s) (hv : eventValid s e = true) :
    EditIndexInv (step fmt s e) := by
  cases e with
  | addClicked now =>
    by_cases h : s.editing_account
    · simpa [step, h] using hInv
    · intro _
      simp [step, h, List.length_append]
  | editClicked i =>
    by_cases h : s.editing_account
    · simpa [step, h] using hInv
    · intro _
      simp only [eventValid, decide_eq_true_eq] at hv
      simpa [step, h] using hv
  | deleteClicked i =>
    by_cases h : s.editing_account
    · simpa [step, h] using hInv
    · intro hed
      simp only [step, h, if_neg] at hed ⊢
      simp only [Bool.not_eq_true] at h
      simp_all
  | resetClicked i now =>
    by_cases h : s.editing_account
    · simpa [step, h] using hInv
    · intro hed
      simp only [Bool.not_eq_true] at h
      simp [step, h] at hed
  | editFrame newName parsed draft =>
    by_cases h : s.editing_account
    · intro _
      have := hInv h
      cases parsed <;>
        simp [step, h, setDate_length, setName_length, this]
    · simpa [step, h] using hInv
  | closeEdit =>
    by_cases h : s.editing_account <;> intro hed
    · simp [step, h] at hed
    · simp only [Bool.not_eq_true] at h
      simp [step, h] at hed

/-- Witness for C10: the invariant survives a reset event on a concrete
editing state. -/
theorem claim_C10_inv_preserved_witness :
    EditIndexInv (step (fun _ => []) ⟨[⟨[97], 5⟩], true, 0, []⟩
      (.resetClicked 0 99)) :=
  claim_C10_inv_preserved (fun _ => []) ⟨[⟨[97], 5⟩], true, 0, []⟩
    (.resetClicked 0 99) (by decide) (by decide)

end CasesNotifier
